import Mathlib

/-!
Shallow embedding of the image-augmentation transforms of
`src/Assignment1/Gurbaaz190349/dataset.py`, together with a verification of
the specification's claims about them.

An image is modelled as a total function from (channel, row, column) to a
rational pixel value; the program's arrays are 3 x 32 x 32, so statements
quantify over channel < 3, row < 32, column < 32.  numpy's float64
arithmetic is modelled by exact rational arithmetic.  The random draws a
transform consumes are passed to it as explicit arguments (the program reads
them from the global `random` generator): the rotation receives the cosine
and sine of the drawn angle (for the drawn angle 0 these are exactly 1
and 0, also in IEEE arithmetic), the cutout its corner coordinates and fill
colour, the crop its two offsets, and the contrast-and-flip stage its factor
alpha and flip draw p.

The nested write loops of the program are embedded as left folds over the
lists of visited index triples, in the program's iteration order, so that
overwrite order is preserved.  A second, list-based embedding at the end of
the file keeps the actual array extents and is used for the claims about
shape checking.
-/

/-- An image value: channel, row, column to pixel value. -/
abbrev Image : Type := ℕ → ℕ → ℕ → ℚ

/-- The all-zero image, `np.zeros((3, 32, 32))`. -/
def zeroImage : Image := fun _ _ _ => 0

/-- A single array store `img[c][i][j] = v`. -/
def setPix (img : Image) (c i j : ℕ) (v : ℚ) : Image :=
  fun x y z => if x = c ∧ y = i ∧ z = j then v else img x y z

/-- Nearest-integer rounding with ties to even, `np.rint`. -/
def rint (x : ℚ) : ℤ :=
  if x - ⌊x⌋ < 1/2 then ⌊x⌋
  else if 1/2 < x - ⌊x⌋ then ⌊x⌋ + 1
  else if ⌊x⌋ % 2 = 0 then ⌊x⌋ else ⌊x⌋ + 1

/-- Conversion of an integer to `uint8`: reduction mod 256.  The program
applies `.astype("uint8")` to the rounded coordinate before comparing and
indexing with it. -/
def toU8 (z : ℤ) : ℤ := z % 256

/-- Row coordinate computed by the rotation, line 73 of the source:
`(i - 15.5) * cos + (j - 15.5) * sin + 15.5` (before rounding). -/
abbrev niVal (cs sn : ℚ) (i j : ℕ) : ℚ :=
  ((i : ℚ) - 15.5) * cs + ((j : ℚ) - 15.5) * sn + 15.5

/-- Column coordinate computed by the rotation, line 74 of the source:
`(j - 15.5) * cos - (i - 15.5) * sin + 15.5` (before rounding). -/
abbrev njVal (cs sn : ℚ) (i j : ℕ) : ℚ :=
  ((j : ℚ) - 15.5) * cs - ((i : ℚ) - 15.5) * sn + 15.5

/-- The destination-range test of the rotation, line 75 of the source:
`ni >= 0 and ni < 32 and nj >= 0 and nj < 32`, evaluated on the
uint8-converted rounded coordinates. -/
abbrev rotGuard (cs sn : ℚ) (i j : ℕ) : Prop :=
  0 ≤ toU8 (rint (niVal cs sn i j)) ∧ toU8 (rint (niVal cs sn i j)) < 32 ∧
    0 ≤ toU8 (rint (njVal cs sn i j)) ∧ toU8 (rint (njVal cs sn i j)) < 32

/-- Index triples (channel, i, j) visited by the rotation loops, in
iteration order: i outermost, then j, then the channel loop. -/
def rotTriples : List (ℕ × ℕ × ℕ) :=
  (List.range 32).flatMap fun i =>
    (List.range 32).flatMap fun j =>
      (List.range 3).map fun c => (c, i, j)

/-- `random_rotation`, lines 55-79 of the source, with the cosine and sine
of the negated-then-converted drawn angle passed in as `cs`, `sn`.  Each
source pixel (i, j) is scattered to the uint8-converted rounded destination
when the guard passes, over a zero-initialized output. -/
def random_rotation (cs sn : ℚ) (input : Image) : Image :=
  rotTriples.foldl
    (fun acc t =>
      if rotGuard cs sn t.2.1 t.2.2 then
        setPix acc t.1 (toU8 (rint (niVal cs sn t.2.1 t.2.2))).toNat
          (toU8 (rint (njVal cs sn t.2.1 t.2.2))).toNat (input t.1 t.2.1 t.2.2)
      else acc)
    zeroImage

/-- Modelled from the spec: the rotation with the out-of-range test taken
with exact integer semantics on the rounded coordinates (`>= 0 and < 32`
before any unsigned conversion), used as the reference the code's guard is
compared against. -/
def rotationExactClip (cs sn : ℚ) (input : Image) : Image :=
  rotTriples.foldl
    (fun acc t =>
      if 0 ≤ rint (niVal cs sn t.2.1 t.2.2) ∧ rint (niVal cs sn t.2.1 t.2.2) < 32 ∧
          0 ≤ rint (njVal cs sn t.2.1 t.2.2) ∧ rint (njVal cs sn t.2.1 t.2.2) < 32 then
        setPix acc t.1 (rint (niVal cs sn t.2.1 t.2.2)).toNat
          (rint (njVal cs sn t.2.1 t.2.2)).toNat (input t.1 t.2.1 t.2.2)
      else acc)
    zeroImage

lemma mem_rotTriples {c i j : ℕ} :
    (c, i, j) ∈ rotTriples ↔ c < 3 ∧ i < 32 ∧ j < 32 := by
  simp only [rotTriples, List.mem_flatMap, List.mem_map, List.mem_range]
  constructor
  · rintro ⟨a, ha, b, hb, x, hx, hxeq⟩
    simp only [Prod.mk.injEq] at hxeq
    obtain ⟨rfl, rfl, rfl⟩ := hxeq
    exact ⟨hx, ha, hb⟩
  · rintro ⟨hc, hi, hj⟩
    exact ⟨i, hi, j, hj, c, hc, rfl⟩

/-- Key characterization of a left fold of keyed stores: when the stored
value is a function of the written key alone, the final buffer holds that
value at every key that occurs in the list, and the initial value
elsewhere. -/
lemma foldl_setPix (l : List (ℕ × ℕ × ℕ)) (V : ℕ × ℕ × ℕ → ℚ) (init : Image)
    (c i j : ℕ) :
    (l.foldl (fun acc t => setPix acc t.1 t.2.1 t.2.2 (V t)) init) c i j
      = if (c, i, j) ∈ l then V (c, i, j) else init c i j := by
  induction l generalizing init with
  | nil => simp
  | cons hd tl ih =>
    rw [List.foldl_cons, ih]
    by_cases hmem : (c, i, j) ∈ tl
    · simp [hmem]
    · by_cases heq : (c, i, j) = hd
      · subst heq
        simp [hmem, setPix]
      · have : ¬(c = hd.1 ∧ i = hd.2.1 ∧ j = hd.2.2) := by
          intro hcon
          exact heq (by obtain ⟨h1, h2, h3⟩ := hcon; subst h1 h2 h3; rfl)
        simp [hmem, heq, setPix, this]

/-- Congruence for left folds: two folds of functions that agree on all
list members (for every accumulator) agree. -/
lemma foldl_congr_mem {α β : Type} {l : List α} {f g : β → α → β} {init : β}
    (h : ∀ b, ∀ a ∈ l, f b a = g b a) : l.foldl f init = l.foldl g init := by
  induction l generalizing init with
  | nil => rfl
  | cons hd tl ih =>
    rw [List.foldl_cons, List.foldl_cons, h init hd (List.mem_cons_self hd tl)]
    exact ih fun b a ha => h b a (List.mem_cons_of_mem hd ha)

/-- Invariant preservation along a left fold. -/
lemma foldl_invariant {α β : Type} (P : β → Prop) (f : β → α → β) (l : List α)
    (init : β) (h0 : P init) (hstep : ∀ b, ∀ a ∈ l, P b → P (f b a)) :
    P (l.foldl f init) := by
  induction l generalizing init with
  | nil => exact h0
  | cons hd tl ih =>
    exact ih (f init hd) (hstep init hd (List.mem_cons_self hd tl) h0)
      fun b a ha => hstep b a (List.mem_cons_of_mem hd ha)

lemma rint_natCast (n : ℕ) : rint (n : ℚ) = n := by
  have h : ⌊(n : ℚ)⌋ = (n : ℤ) := Int.floor_natCast n
  simp [rint, h]

lemma rint_ge_floor (x : ℚ) : ⌊x⌋ ≤ rint x := by
  unfold rint; split
  · exact le_refl _
  · split
    · omega
    · split <;> omega

lemma rint_le_floor_add_one (x : ℚ) : rint x ≤ ⌊x⌋ + 1 := by
  unfold rint; split
  · omega
  · split
    · omega
    · split <;> omega

lemma absCoord (i : ℕ) (hi : i < 32) : |(i : ℚ) - 15.5| ≤ 15.5 := by
  have h1 : (i : ℚ) ≤ 31 := by exact_mod_cast Nat.lt_succ_iff.mp hi
  have h2 : (0 : ℚ) ≤ i := Nat.cast_nonneg i
  rw [abs_le]
  constructor <;> linarith

lemma mulBound {a c : ℚ} (ha : |a| ≤ 15.5) (hc : |c| ≤ 1) : |a * c| ≤ 15.5 := by
  rw [abs_mul]
  calc |a| * |c| ≤ 15.5 * 1 := mul_le_mul ha hc (abs_nonneg c) (by norm_num)
  _ = 15.5 := by norm_num

lemma niVal_bounds (cs sn : ℚ) (h1 : -1 ≤ cs) (h2 : cs ≤ 1) (h3 : -1 ≤ sn)
    (h4 : sn ≤ 1) {i j : ℕ} (hi : i < 32) (hj : j < 32) :
    -15.5 ≤ niVal cs sn i j ∧ niVal cs sn i j ≤ 46.5 := by
  have ha := mulBound (absCoord i hi) (abs_le.mpr ⟨h1, h2⟩)
  have hb := mulBound (absCoord j hj) (abs_le.mpr ⟨h3, h4⟩)
  rw [abs_le] at ha hb
  unfold niVal
  constructor <;> linarith [ha.1, ha.2, hb.1, hb.2]

lemma njVal_bounds (cs sn : ℚ) (h1 : -1 ≤ cs) (h2 : cs ≤ 1) (h3 : -1 ≤ sn)
    (h4 : sn ≤ 1) {i j : ℕ} (hi : i < 32) (hj : j < 32) :
    -15.5 ≤ njVal cs sn i j ∧ njVal cs sn i j ≤ 46.5 := by
  have ha := mulBound (absCoord j hj) (abs_le.mpr ⟨h1, h2⟩)
  have hb := mulBound (absCoord i hi) (abs_le.mpr ⟨h3, h4⟩)
  rw [abs_le] at ha hb
  unfold njVal
  constructor <;> linarith [ha.1, ha.2, hb.1, hb.2]

lemma rint_window {x : ℚ} (hlo : -15.5 ≤ x) (hhi : x ≤ 46.5) :
    -16 ≤ rint x ∧ rint x ≤ 47 := by
  have hfl : (-16 : ℤ) ≤ ⌊x⌋ := by
    have : ⌊(-15.5 : ℚ)⌋ ≤ ⌊x⌋ := Int.floor_le_floor hlo
    have he : ⌊(-15.5 : ℚ)⌋ = -16 := by norm_num [Int.floor_eq_iff]
    omega
  have hfu : ⌊x⌋ ≤ 46 := by
    have : ⌊x⌋ ≤ ⌊(46.5 : ℚ)⌋ := Int.floor_le_floor hhi
    have he : ⌊(46.5 : ℚ)⌋ = 46 := by norm_num [Int.floor_eq_iff]
    omega
  have h1 := rint_ge_floor x
  have h2 := rint_le_floor_add_one x
  omega

lemma toU8_window {r : ℤ} (hlo : -16 ≤ r) (hhi : r ≤ 47) :
    (0 ≤ toU8 r ∧ toU8 r < 32) ↔ (0 ≤ r ∧ r < 32) := by
  unfold toU8
  omega

lemma toU8_of_range {r : ℤ} (h0 : 0 ≤ r) (h32 : r < 32) : toU8 r = r := by
  unfold toU8
  omega

lemma rotGuard_iff (cs sn : ℚ) (h1 : -1 ≤ cs) (h2 : cs ≤ 1) (h3 : -1 ≤ sn)
    (h4 : sn ≤ 1) {i j : ℕ} (hi : i < 32) (hj : j < 32) :
    rotGuard cs sn i j ↔
      (0 ≤ rint (niVal cs sn i j) ∧ rint (niVal cs sn i j) < 32 ∧
        0 ≤ rint (njVal cs sn i j) ∧ rint (njVal cs sn i j) < 32) := by
  obtain ⟨ha, hb⟩ := niVal_bounds cs sn h1 h2 h3 h4 hi hj
  obtain ⟨hc, hd⟩ := njVal_bounds cs sn h1 h2 h3 h4 hi hj
  obtain ⟨hna, hnb⟩ := rint_window ha hb
  obtain ⟨hnc, hnd⟩ := rint_window hc hd
  have e1 := toU8_window hna hnb
  have e2 := toU8_window hnc hnd
  unfold rotGuard
  tauto

/-- C3: in the rotation, a destination pixel is written (the source pixel is
kept) if and only if the exact rounded coordinates satisfy
`0 <= ni < 32` and `0 <= nj < 32`; the uint8-converted guard the code
evaluates is equivalent to the exact-range test, and the rotation equals the
reference rotation with exact out-of-range clipping. -/
theorem rotation_drop_iff_exact_range (cs sn : ℚ) (input : Image)
    (h1 : -1 ≤ cs) (h2 : cs ≤ 1) (h3 : -1 ≤ sn) (h4 : sn ≤ 1) :
    (∀ i j : ℕ, i < 32 → j < 32 →
        (rotGuard cs sn i j ↔
          (0 ≤ rint (niVal cs sn i j) ∧ rint (niVal cs sn i j) < 32 ∧
            0 ≤ rint (njVal cs sn i j) ∧ rint (njVal cs sn i j) < 32))) ∧
    random_rotation cs sn input = rotationExactClip cs sn input := by
  constructor
  · intro i j hi hj
    exact rotGuard_iff cs sn h1 h2 h3 h4 hi hj
  · unfold random_rotation rotationExactClip
    apply foldl_congr_mem
    intro b t ht
    obtain ⟨c, ij⟩ := t
    obtain ⟨i, j⟩ := ij
    rw [mem_rotTriples] at ht
    obtain ⟨hc, hi, hj⟩ := ht
    dsimp only
    by_cases hex : 0 ≤ rint (niVal cs sn i j) ∧ rint (niVal cs sn i j) < 32 ∧
        0 ≤ rint (njVal cs sn i j) ∧ rint (njVal cs sn i j) < 32
    · rw [if_pos hex, if_pos ((rotGuard_iff cs sn h1 h2 h3 h4 hi hj).mpr hex)]
      obtain ⟨ea, eb, ec, ed⟩ := hex
      rw [toU8_of_range ea eb, toU8_of_range ec ed]
    · rw [if_neg hex,
        if_neg (fun hg => hex ((rotGuard_iff cs sn h1 h2 h3 h4 hi hj).mp hg))]

theorem rotation_drop_iff_exact_range_witness :
    (((-1 : ℚ) ≤ 1 ∧ (1 : ℚ) ≤ 1) ∧ ((-1 : ℚ) ≤ 0 ∧ (0 : ℚ) ≤ 1)) ∧
    ((∀ i j : ℕ, i < 32 → j < 32 →
        (rotGuard 1 0 i j ↔
          (0 ≤ rint (niVal 1 0 i j) ∧ rint (niVal 1 0 i j) < 32 ∧
            0 ≤ rint (njVal 1 0 i j) ∧ rint (njVal 1 0 i j) < 32))) ∧
      random_rotation 1 0 zeroImage = rotationExactClip 1 0 zeroImage) :=
  ⟨⟨⟨by norm_num, by norm_num⟩, ⟨by norm_num, by norm_num⟩⟩,
    rotation_drop_iff_exact_range 1 0 zeroImage (by norm_num) (by norm_num)
      (by norm_num) (by norm_num)⟩

lemma rint_niVal_one_zero (i j : ℕ) : rint (niVal 1 0 i j) = i := by
  have h : niVal 1 0 i j = (i : ℚ) := by
    unfold niVal
    ring
  rw [h, rint_natCast]

lemma rint_njVal_one_zero (i j : ℕ) : rint (njVal 1 0 i j) = j := by
  have h : njVal 1 0 i j = (j : ℚ) := by
    unfold njVal
    ring
  rw [h, rint_natCast]

/-- C7: the rotation with drawn angle 0 (cosine 1, sine 0) reproduces the
input image exactly at every pixel of every channel, with no holes. -/
theorem rotation_zero_identity (input : Image) (c i j : ℕ)
    (hc : c < 3) (hi : i < 32) (hj : j < 32) :
    random_rotation 1 0 input c i j = input c i j := by
  unfold random_rotation
  have hfold : rotTriples.foldl
      (fun acc t =>
        if rotGuard 1 0 t.2.1 t.2.2 then
          setPix acc t.1 (toU8 (rint (niVal 1 0 t.2.1 t.2.2))).toNat
            (toU8 (rint (njVal 1 0 t.2.1 t.2.2))).toNat (input t.1 t.2.1 t.2.2)
        else acc) zeroImage
      = rotTriples.foldl
        (fun acc t => setPix acc t.1 t.2.1 t.2.2 (input t.1 t.2.1 t.2.2))
        zeroImage := by
    apply foldl_congr_mem
    intro b t ht
    obtain ⟨c', ij⟩ := t
    obtain ⟨i', j'⟩ := ij
    rw [mem_rotTriples] at ht
    obtain ⟨hc', hi', hj'⟩ := ht
    dsimp only
    have hg : rotGuard 1 0 i' j' := by
      unfold rotGuard
      rw [rint_niVal_one_zero i' j', rint_njVal_one_zero i' j']
      unfold toU8
      omega
    rw [if_pos hg, rint_niVal_one_zero i' j', rint_njVal_one_zero i' j']
    have e1 : (toU8 (i' : ℤ)).toNat = i' := by
      unfold toU8
      omega
    have e2 : (toU8 (j' : ℤ)).toNat = j' := by
      unfold toU8
      omega
    rw [e1, e2]
  rw [hfold, foldl_setPix rotTriples (fun t => input t.1 t.2.1 t.2.2) zeroImage c i j,
    if_pos (mem_rotTriples.mpr ⟨hc, hi, hj⟩)]

theorem rotation_zero_identity_witness :
    (0 < 3 ∧ 0 < 32 ∧ 1 < 32) ∧
    random_rotation 1 0 (fun _ _ _ => (5 : ℚ)) 0 0 1 = (fun _ _ _ => (5 : ℚ)) 0 0 1 :=
  ⟨⟨by decide, by decide, by decide⟩,
    rotation_zero_identity (fun _ _ _ => (5 : ℚ)) 0 0 1 (by decide) (by decide) (by decide)⟩

/-- The zero-padded 36 x 36 buffer built by `random_crop` (lines 134-140 of
the source): `np.pad(input_image[channel], pad_width=2, constant 0)` per
channel, inside `np.zeros((3, 36, 36))`. -/
def padded_image (input : Image) : Image :=
  fun c i j =>
    if c < 3 ∧ 2 ≤ i ∧ i < 34 ∧ 2 ≤ j ∧ j < 34 then input c (i - 2) (j - 2) else 0

/-- `random_crop`, lines 116-145 of the source, with the drawn offsets
`tlx`, `tly` passed in: the 32 x 32 window of the padded buffer starting at
(tlx, tly), written into `np.zeros((3, 32, 32))`. -/
def random_crop (tlx tly : ℕ) (input : Image) : Image :=
  fun c i j =>
    if c < 3 ∧ i < 32 ∧ j < 32 then padded_image input c (tlx + i) (tly + j) else 0

/-- C5: the crop output is the 32 x 32 window of the zero-padded 36 x 36
buffer starting at (tlx, tly); outside channel < 3, row < 32, col < 32 the
output array does not extend (shape is always 3 x 32 x 32, modelled as value
0 off the array); and for tlx = tly = 2 the output equals the input
exactly. -/
theorem crop_window_spec (tlx tly : ℕ) (input : Image)
    (h1 : tlx ≤ 4) (h2 : tly ≤ 4) :
    (∀ c < 3, ∀ i < 32, ∀ j < 32,
        random_crop tlx tly input c i j = padded_image input c (tlx + i) (tly + j)) ∧
    (∀ c i j : ℕ, 3 ≤ c ∨ 32 ≤ i ∨ 32 ≤ j → random_crop tlx tly input c i j = 0) ∧
    (tlx = 2 → tly = 2 → ∀ c < 3, ∀ i < 32, ∀ j < 32,
        random_crop tlx tly input c i j = input c i j) := by
  refine ⟨?_, ?_, ?_⟩
  · intro c hc i hi j hj
    unfold random_crop
    rw [if_pos ⟨hc, hi, hj⟩]
  · intro c i j h
    unfold random_crop
    rw [if_neg]
    omega
  · rintro rfl rfl c hc i hi j hj
    unfold random_crop padded_image
    rw [if_pos ⟨hc, hi, hj⟩,
      if_pos ⟨hc, by omega, by omega, by omega, by omega⟩,
      show 2 + i - 2 = i by omega, show 2 + j - 2 = j by omega]

theorem crop_window_spec_witness :
    (2 ≤ 4 ∧ 2 ≤ 4) ∧
    ((∀ c < 3, ∀ i < 32, ∀ j < 32,
        random_crop 2 2 (fun _ _ _ => (7 : ℚ)) c i j
          = padded_image (fun _ _ _ => (7 : ℚ)) c (2 + i) (2 + j)) ∧
      (∀ c i j : ℕ, 3 ≤ c ∨ 32 ≤ i ∨ 32 ≤ j →
        random_crop 2 2 (fun _ _ _ => (7 : ℚ)) c i j = 0) ∧
      (2 = 2 → 2 = 2 → ∀ c < 3, ∀ i < 32, ∀ j < 32,
        random_crop 2 2 (fun _ _ _ => (7 : ℚ)) c i j = (fun _ _ _ => (7 : ℚ)) c i j)) :=
  ⟨⟨by decide, by decide⟩,
    crop_window_spec 2 2 (fun _ _ _ => (7 : ℚ)) (by decide) (by decide)⟩

/-- Index triples visited by the cutout fill loops, lines 108-111 of the
source: channel outermost, then rows `tlx..brx`, then columns `tly..bry`
(both ends inclusive). -/
def cutTriples (tlx tly brx bry : ℕ) : List (ℕ × ℕ × ℕ) :=
  (List.range 3).flatMap fun c =>
    (List.range' tlx (brx + 1 - tlx)).flatMap fun i =>
      (List.range' tly (bry + 1 - tly)).map fun j => (c, i, j)

/-- `random_cutout`, lines 82-113 of the source, with the drawn rectangle
corners and per-channel fill value passed in.  The output starts as a copy
of the input (`np.copy`) and the fill loops overwrite the rectangle. -/
def random_cutout (value : ℕ → ℚ) (tlx tly brx bry : ℕ) (input : Image) : Image :=
  (cutTriples tlx tly brx bry).foldl
    (fun acc t => setPix acc t.1 t.2.1 t.2.2 (value t.1)) input

lemma mem_cutTriples {tlx tly brx bry c i j : ℕ} :
    (c, i, j) ∈ cutTriples tlx tly brx bry ↔
      c < 3 ∧ tlx ≤ i ∧ i ≤ brx ∧ tly ≤ j ∧ j ≤ bry := by
  simp only [cutTriples, List.mem_flatMap, List.mem_map, List.mem_range,
    List.mem_range'_1]
  constructor
  · rintro ⟨x, hx, a, ha, b, hb, hxeq⟩
    simp only [Prod.mk.injEq] at hxeq
    obtain ⟨rfl, rfl, rfl⟩ := hxeq
    omega
  · rintro ⟨hc, h1, h2, h3, h4⟩
    exact ⟨c, hc, i, by omega, j, by omega, rfl⟩

/-- Pointwise characterization of the cutout: the fill value inside the
inclusive rectangle (all three channels), the copied input outside. -/
lemma cutout_char (value : ℕ → ℚ) (tlx tly brx bry : ℕ) (input : Image)
    (c i j : ℕ) :
    random_cutout value tlx tly brx bry input c i j
      = if c < 3 ∧ tlx ≤ i ∧ i ≤ brx ∧ tly ≤ j ∧ j ≤ bry then value c
        else input c i j := by
  unfold random_cutout
  rw [foldl_setPix (cutTriples tlx tly brx bry) (fun t => value t.1) input c i j]
  by_cases hcase : c < 3 ∧ tlx ≤ i ∧ i ≤ brx ∧ tly ≤ j ∧ j ≤ bry
  · rw [if_pos (mem_cutTriples.mpr hcase), if_pos hcase]
  · rw [if_neg (fun hm => hcase (mem_cutTriples.mp hm)), if_neg hcase]

/-- C4: under the cutout randomness contract, the output equals the
per-channel fill value on the inclusive rectangle [tlx,brx] x [tly,bry] in
all three channels, and equals the input pixel everywhere outside it. -/
theorem cutout_fill_rectangle_spec (w h : ℕ) (value : ℕ → ℚ)
    (tlx tly brx bry : ℕ) (input : Image)
    (hw : w ≤ 16) (hh : h ≤ 16) (htlx : tlx ≤ 31 - w) (htly : tly ≤ 31 - h)
    (hbrx1 : tlx ≤ brx) (hbrx2 : brx ≤ 31) (hbry1 : tly ≤ bry) (hbry2 : bry ≤ 31)
    (hval : ∀ c < 3, 0 ≤ value c ∧ value c ≤ 255) :
    ∀ c < 3, ∀ i < 32, ∀ j < 32,
      random_cutout value tlx tly brx bry input c i j
        = if tlx ≤ i ∧ i ≤ brx ∧ tly ≤ j ∧ j ≤ bry then value c
          else input c i j := by
  intro c hc i hi j hj
  rw [cutout_char]
  by_cases hin : tlx ≤ i ∧ i ≤ brx ∧ tly ≤ j ∧ j ≤ bry
  · rw [if_pos ⟨hc, hin.1, hin.2.1, hin.2.2.1, hin.2.2.2⟩, if_pos hin]
  · rw [if_neg (fun hcon => hin ⟨hcon.2.1, hcon.2.2.1, hcon.2.2.2.1, hcon.2.2.2.2⟩),
      if_neg hin]

theorem cutout_fill_rectangle_spec_witness :
    (5 ≤ 16 ∧ 5 ≤ 16 ∧ 0 ≤ 31 - 5 ∧ 0 ≤ 31 - 5 ∧ 0 ≤ 4 ∧ 4 ≤ 31 ∧ 0 ≤ 4 ∧ 4 ≤ 31 ∧
      (∀ c < 3, 0 ≤ (10 : ℚ) ∧ (10 : ℚ) ≤ 255)) ∧
    (∀ c < 3, ∀ i < 32, ∀ j < 32,
      random_cutout (fun _ => (10 : ℚ)) 0 0 4 4 (fun _ _ _ => (100 : ℚ)) c i j
        = if 0 ≤ i ∧ i ≤ 4 ∧ 0 ≤ j ∧ j ≤ 4 then (10 : ℚ) else (100 : ℚ)) :=
  ⟨⟨by decide, by decide, by decide, by decide, by decide, by decide, by decide,
      by decide, fun c _ => ⟨by norm_num, by norm_num⟩⟩,
    cutout_fill_rectangle_spec 5 5 (fun _ => (10 : ℚ)) 0 0 4 4
      (fun _ _ _ => (100 : ℚ)) (by decide) (by decide) (by decide) (by decide)
      (by decide) (by decide) (by decide) (by decide)
      (fun c _ => ⟨by norm_num, by norm_num⟩)⟩

/-- Index triples of the contrast loops, lines 164-169 of the source:
channel, then row, then column, all full ranges. -/
def ctTriples : List (ℕ × ℕ × ℕ) :=
  (List.range 3).flatMap fun c =>
    (List.range 32).flatMap fun i =>
      (List.range 32).map fun j => (c, i, j)

/-- `np.clip(x, 0, 255)` on a single value. -/
def clipQ (x : ℚ) : ℚ := min (max x 0) 255

/-- The contrast loop, lines 161-169 of the source: every pixel of a
zero-initialized buffer is written with `alpha * (input - 128) + 128`
(no clipping yet). -/
def contrastPass (alpha : ℚ) (input : Image) : Image :=
  ctTriples.foldl
    (fun acc t =>
      setPix acc t.1 t.2.1 t.2.2 (alpha * (input t.1 t.2.1 t.2.2 - 128) + 128))
    zeroImage

/-- Line 171 of the source: the single clip applied to the whole buffer
after the full contrast pass. -/
def contrastStage (alpha : ℚ) (input : Image) : Image :=
  fun c i j => clipQ (contrastPass alpha input c i j)

/-- Index triples of the flip loops, lines 177-186 of the source: channel,
row, and column restricted to the left half `j < 16`. -/
def flipTriples : List (ℕ × ℕ × ℕ) :=
  (List.range 3).flatMap fun c =>
    (List.range 32).flatMap fun i =>
      (List.range 16).map fun j => (c, i, j)

/-- `contrast_and_horizontal_flipping`, lines 148-188 of the source, with
the drawn factor `alpha` and flip draw `p` passed in.  When `p > 0.5` the
swap loop assigns, for each j < 16, first `output[c][i][j] =
input_image[c][i][31-j]` and then `output[c][i][31-j] = input_image[c][i][j]`
-- reading both values from `input_image`, exactly as the source does. -/
def contrast_and_horizontal_flipping (alpha p : ℚ) (input : Image) : Image :=
  if 1/2 < p then
    flipTriples.foldl
      (fun acc t =>
        setPix (setPix acc t.1 t.2.1 t.2.2 (input t.1 t.2.1 (31 - t.2.2)))
          t.1 t.2.1 (31 - t.2.2) (input t.1 t.2.1 t.2.2))
      (contrastStage alpha input)
  else contrastStage alpha input

lemma mem_ctTriples {c i j : ℕ} :
    (c, i, j) ∈ ctTriples ↔ c < 3 ∧ i < 32 ∧ j < 32 := by
  simp only [ctTriples, List.mem_flatMap, List.mem_map, List.mem_range]
  constructor
  · rintro ⟨x, hx, a, ha, b, hb, hxeq⟩
    simp only [Prod.mk.injEq] at hxeq
    obtain ⟨rfl, rfl, rfl⟩ := hxeq
    exact ⟨hx, ha, hb⟩
  · rintro ⟨hc, hi, hj⟩
    exact ⟨c, hc, i, hi, j, hj, rfl⟩

lemma mem_flipTriples {c i j : ℕ} :
    (c, i, j) ∈ flipTriples ↔ c < 3 ∧ i < 32 ∧ j < 16 := by
  simp only [flipTriples, List.mem_flatMap, List.mem_map, List.mem_range]
  constructor
  · rintro ⟨x, hx, a, ha, b, hb, hxeq⟩
    simp only [Prod.mk.injEq] at hxeq
    obtain ⟨rfl, rfl, rfl⟩ := hxeq
    exact ⟨hx, ha, hb⟩
  · rintro ⟨hc, hi, hj⟩
    exact ⟨c, hc, i, hi, j, hj, rfl⟩

/-- Characterization of the contrast pass: the unclipped linear formula on
the 3 x 32 x 32 region, 0 outside. -/
lemma contrastPass_char (alpha : ℚ) (input : Image) (c i j : ℕ) :
    contrastPass alpha input c i j
      = if c < 3 ∧ i < 32 ∧ j < 32 then alpha * (input c i j - 128) + 128
        else 0 := by
  unfold contrastPass
  rw [foldl_setPix ctTriples
    (fun t => alpha * (input t.1 t.2.1 t.2.2 - 128) + 128) zeroImage c i j]
  by_cases hcase : c < 3 ∧ i < 32 ∧ j < 32
  · rw [if_pos (mem_ctTriples.mpr hcase), if_pos hcase]
  · rw [if_neg (fun hm => hcase (mem_ctTriples.mp hm)), if_neg hcase]
    rfl

/-- Characterization of a fold of the swap writes: a cell is touched
exactly when its column is a swap partner of a visited column, and the
value stored there is always the input pixel mirrored about column 15.5. -/
lemma foldl_swapPix (input : Image) (l : List (ℕ × ℕ × ℕ)) (init : Image)
    (hl : ∀ t ∈ l, t.2.2 < 16) (c i j : ℕ) :
    (l.foldl
        (fun acc t =>
          setPix (setPix acc t.1 t.2.1 t.2.2 (input t.1 t.2.1 (31 - t.2.2)))
            t.1 t.2.1 (31 - t.2.2) (input t.1 t.2.1 t.2.2))
        init) c i j
      = if ∃ t ∈ l, c = t.1 ∧ i = t.2.1 ∧ (j = t.2.2 ∨ j = 31 - t.2.2) then
          input c i (31 - j)
        else init c i j := by
  induction l generalizing init with
  | nil => simp
  | cons hd tl ih =>
    rw [List.foldl_cons, ih _ fun t ht => hl t (List.mem_cons_of_mem hd ht)]
    have hhd : hd.2.2 < 16 := hl hd (List.mem_cons_self hd tl)
    by_cases hmem : ∃ t ∈ tl, c = t.1 ∧ i = t.2.1 ∧ (j = t.2.2 ∨ j = 31 - t.2.2)
    · rw [if_pos hmem]
      obtain ⟨t, ht, hprop⟩ := hmem
      rw [if_pos ⟨t, List.mem_cons_of_mem hd ht, hprop⟩]
    · rw [if_neg hmem]
      by_cases hc1 : c = hd.1 ∧ i = hd.2.1 ∧ j = 31 - hd.2.2
      · rw [if_pos ⟨hd, List.mem_cons_self hd tl, hc1.1, hc1.2.1, Or.inr hc1.2.2⟩]
        unfold setPix
        rw [if_pos hc1]
        obtain ⟨rfl, rfl, rfl⟩ := hc1
        rw [show 31 - (31 - hd.2.2) = hd.2.2 by omega]
      · by_cases hc2 : c = hd.1 ∧ i = hd.2.1 ∧ j = hd.2.2
        · rw [if_pos ⟨hd, List.mem_cons_self hd tl, hc2.1, hc2.2.1, Or.inl hc2.2.2⟩]
          unfold setPix
          rw [if_neg (fun hcon => hc1 hcon), if_pos hc2]
          obtain ⟨rfl, rfl, rfl⟩ := hc2
          rfl
        · rw [if_neg, setPix, setPix]
          · rw [if_neg (fun hcon => hc1 hcon), if_neg (fun hcon => hc2 hcon)]
          · rintro ⟨t, ht, hprop⟩
            rcases List.mem_cons.mp ht with rfl | htl
            · rcases hprop.2.2 with hj1 | hj2
              · exact hc2 ⟨hprop.1, hprop.2.1, hj1⟩
              · exact hc1 ⟨hprop.1, hprop.2.1, hj2⟩
            · exact hmem ⟨t, htl, hprop⟩

lemma flipTriples_bound : ∀ t ∈ flipTriples, t.2.2 < 16 := by
  rintro ⟨a, b, d⟩ ht
  exact (mem_flipTriples.mp ht).2.2

lemma flip_cond_iff {c i j : ℕ} :
    (∃ t ∈ flipTriples, c = t.1 ∧ i = t.2.1 ∧ (j = t.2.2 ∨ j = 31 - t.2.2)) ↔
      c < 3 ∧ i < 32 ∧ j < 32 := by
  constructor
  · rintro ⟨⟨x, a, b⟩, ht, h1, h2, h3⟩
    obtain ⟨hx, ha, hb⟩ := mem_flipTriples.mp ht
    dsimp only at h1 h2 h3
    omega
  · rintro ⟨hc, hi, hj⟩
    by_cases hlt : j < 16
    · exact ⟨(c, i, j), mem_flipTriples.mpr ⟨hc, hi, hlt⟩, rfl, rfl, Or.inl rfl⟩
    · exact ⟨(c, i, 31 - j), mem_flipTriples.mpr ⟨hc, hi, show 31 - j < 16 by omega⟩,
        rfl, rfl, Or.inr (show j = 31 - (31 - j) by omega)⟩

/-- With a flip draw above one half, every pixel of the 3 x 32 x 32 output
is the pre-contrast input pixel mirrored about the vertical centre (this is
what the code computes; the contrast-adjusted buffer is overwritten). -/
lemma cf_flip_char (alpha p : ℚ) (input : Image) (hp : 1/2 < p) (c i j : ℕ)
    (hc : c < 3) (hi : i < 32) (hj : j < 32) :
    contrast_and_horizontal_flipping alpha p input c i j = input c i (31 - j) := by
  unfold contrast_and_horizontal_flipping
  rw [if_pos hp, foldl_swapPix input flipTriples _ flipTriples_bound c i j,
    if_pos (flip_cond_iff.mpr ⟨hc, hi, hj⟩)]

lemma cf_noflip_char (alpha p : ℚ) (input : Image) (hp : ¬(1/2 < p)) :
    contrast_and_horizontal_flipping alpha p input = contrastStage alpha input := by
  unfold contrast_and_horizontal_flipping
  rw [if_neg hp]

/-- C6: each pixel of the contrast stage equals
`clip(alpha * (input - 128) + 128, 0, 255)` (the clip applied once, after
the full pass over the zero-initialized buffer), and for alpha = 1 the
contrast stage is the identity on a valid image. -/
theorem contrast_pixel_spec (alpha : ℚ) (input : Image)
    (h1 : 1/2 ≤ alpha) (h2 : alpha ≤ 2) :
    (∀ c < 3, ∀ i < 32, ∀ j < 32,
        contrastStage alpha input c i j
          = clipQ (alpha * (input c i j - 128) + 128)) ∧
    (alpha = 1 →
      (∀ c < 3, ∀ i < 32, ∀ j < 32, 0 ≤ input c i j ∧ input c i j ≤ 255) →
      ∀ c < 3, ∀ i < 32, ∀ j < 32, contrastStage alpha input c i j = input c i j) := by
  have hchar : ∀ c < 3, ∀ i < 32, ∀ j < 32,
      contrastStage alpha input c i j = clipQ (alpha * (input c i j - 128) + 128) := by
    intro c hc i hi j hj
    unfold contrastStage
    rw [contrastPass_char, if_pos ⟨hc, hi, hj⟩]
  refine ⟨hchar, ?_⟩
  rintro rfl hrange c hc i hi j hj
  rw [hchar c hc i hi j hj]
  obtain ⟨hlo, hhi⟩ := hrange c hc i hi j hj
  rw [show (1 : ℚ) * (input c i j - 128) + 128 = input c i j by ring]
  unfold clipQ
  rw [max_eq_left hlo, min_eq_left hhi]

theorem contrast_pixel_spec_witness :
    ((1 : ℚ)/2 ≤ 1 ∧ (1 : ℚ) ≤ 2) ∧
    ((∀ c < 3, ∀ i < 32, ∀ j < 32,
        contrastStage 1 (fun _ _ _ => (100 : ℚ)) c i j
          = clipQ (1 * ((100 : ℚ) - 128) + 128)) ∧
      ((1 : ℚ) = 1 →
        (∀ c < 3, ∀ i < 32, ∀ j < 32,
          0 ≤ (fun _ _ _ => (100 : ℚ)) c i j ∧ (fun _ _ _ => (100 : ℚ)) c i j ≤ 255) →
        ∀ c < 3, ∀ i < 32, ∀ j < 32,
          contrastStage 1 (fun _ _ _ => (100 : ℚ)) c i j = (100 : ℚ))) :=
  ⟨⟨by norm_num, by norm_num⟩,
    contrast_pixel_spec 1 (fun _ _ _ => (100 : ℚ)) (by norm_num) (by norm_num)⟩

/-- C1 fails on the code: with alpha = 2, flip draw p = 0.9 and the uniform
image of value 100, the output pixel (0,0,0) is 100 (the pre-contrast input
value mirrored from column 31), while the contrast-stage output at column 31
is 72, so the flip does not read from the contrast-adjusted buffer. -/
theorem cf_flip_reads_preContrast_input :
    contrast_and_horizontal_flipping 2 (9/10) (fun _ _ _ => (100 : ℚ)) 0 0 0 = 100 ∧
    contrastStage 2 (fun _ _ _ => (100 : ℚ)) 0 0 31 = 72 := by
  constructor
  · rw [cf_flip_char 2 (9/10) (fun _ _ _ => (100 : ℚ)) (by norm_num) 0 0 0
      (by norm_num) (by norm_num) (by norm_num)]
  · unfold contrastStage
    rw [contrastPass_char, if_pos ⟨by norm_num, by norm_num, by norm_num⟩]
    unfold clipQ
    norm_num

lemma clipQ_range (x : ℚ) : 0 ≤ clipQ x ∧ clipQ x ≤ 255 := by
  unfold clipQ
  constructor
  · exact le_min (le_max_right x 0) (by norm_num)
  · exact min_le_right _ _

lemma rotation_range (cs sn : ℚ) (input : Image)
    (hin : ∀ c < 3, ∀ i < 32, ∀ j < 32, 0 ≤ input c i j ∧ input c i j ≤ 255) :
    ∀ x y z : ℕ,
      0 ≤ random_rotation cs sn input x y z ∧ random_rotation cs sn input x y z ≤ 255 := by
  unfold random_rotation
  refine foldl_invariant
    (fun acc : Image => ∀ x y z : ℕ, 0 ≤ acc x y z ∧ acc x y z ≤ 255) _ _ _ ?_ ?_
  · intro x y z
    exact ⟨le_refl 0, by norm_num [zeroImage]⟩
  · intro b t ht hb x y z
    obtain ⟨c', ij⟩ := t
    obtain ⟨i', j'⟩ := ij
    obtain ⟨hc', hi', hj'⟩ := mem_rotTriples.mp ht
    dsimp only
    split
    · simp only [setPix]
      split
      · exact hin c' hc' i' hi' j' hj'
      · exact hb x y z
    · exact hb x y z

lemma cutout_range (value : ℕ → ℚ) (tlx tly brx bry : ℕ) (input : Image)
    (hval : ∀ c < 3, 0 ≤ value c ∧ value c ≤ 255)
    (hin : ∀ c < 3, ∀ i < 32, ∀ j < 32, 0 ≤ input c i j ∧ input c i j ≤ 255) :
    ∀ c < 3, ∀ i < 32, ∀ j < 32,
      0 ≤ random_cutout value tlx tly brx bry input c i j ∧
        random_cutout value tlx tly brx bry input c i j ≤ 255 := by
  intro c hc i hi j hj
  rw [cutout_char]
  by_cases hcase : c < 3 ∧ tlx ≤ i ∧ i ≤ brx ∧ tly ≤ j ∧ j ≤ bry
  · rw [if_pos hcase]
    exact hval c hc
  · rw [if_neg hcase]
    exact hin c hc i hi j hj

lemma crop_range (tlx tly : ℕ) (input : Image)
    (hin : ∀ c < 3, ∀ i < 32, ∀ j < 32, 0 ≤ input c i j ∧ input c i j ≤ 255) :
    ∀ c < 3, ∀ i < 32, ∀ j < 32,
      0 ≤ random_crop tlx tly input c i j ∧ random_crop tlx tly input c i j ≤ 255 := by
  intro c hc i hi j hj
  unfold random_crop
  rw [if_pos ⟨hc, hi, hj⟩]
  unfold padded_image
  by_cases hcase : c < 3 ∧ 2 ≤ tlx + i ∧ tlx + i < 34 ∧ 2 ≤ tly + j ∧ tly + j < 34
  · rw [if_pos hcase]
    exact hin c hc (tlx + i - 2) (by omega) (tly + j - 2) (by omega)
  · rw [if_neg hcase]
    norm_num

lemma cf_range (alpha p : ℚ) (input : Image)
    (hin : ∀ c < 3, ∀ i < 32, ∀ j < 32, 0 ≤ input c i j ∧ input c i j ≤ 255) :
    ∀ c < 3, ∀ i < 32, ∀ j < 32,
      0 ≤ contrast_and_horizontal_flipping alpha p input c i j ∧
        contrast_and_horizontal_flipping alpha p input c i j ≤ 255 := by
  intro c hc i hi j hj
  by_cases hp : 1/2 < p
  · rw [cf_flip_char alpha p input hp c i j hc hi hj]
    exact hin c hc i hi (31 - j) (by omega)
  · rw [cf_noflip_char alpha p input hp]
    exact clipQ_range _

/-- C8: on a valid image, every transform (under its randomness contract)
produces pixel values in [0, 255] everywhere on the 3 x 32 x 32 output. -/
theorem transforms_output_range
    (cs sn : ℚ) (hcs1 : -1 ≤ cs) (hcs2 : cs ≤ 1) (hsn1 : -1 ≤ sn) (hsn2 : sn ≤ 1)
    (w h : ℕ) (value : ℕ → ℚ) (tlx tly brx bry : ℕ)
    (hw : w ≤ 16) (hh : h ≤ 16) (htlx : tlx ≤ 31 - w) (htly : tly ≤ 31 - h)
    (hbrx1 : tlx ≤ brx) (hbrx2 : brx ≤ 31) (hbry1 : tly ≤ bry) (hbry2 : bry ≤ 31)
    (hval : ∀ c < 3, 0 ≤ value c ∧ value c ≤ 255)
    (ctlx ctly : ℕ) (hctlx : ctlx ≤ 4) (hctly : ctly ≤ 4)
    (alpha p : ℚ) (ha1 : 1/2 ≤ alpha) (ha2 : alpha ≤ 2) (hp1 : 0 ≤ p) (hp2 : p < 1)
    (input : Image)
    (hin : ∀ c < 3, ∀ i < 32, ∀ j < 32, 0 ≤ input c i j ∧ input c i j ≤ 255) :
    (∀ c < 3, ∀ i < 32, ∀ j < 32,
        0 ≤ random_rotation cs sn input c i j ∧
          random_rotation cs sn input c i j ≤ 255) ∧
    (∀ c < 3, ∀ i < 32, ∀ j < 32,
        0 ≤ random_cutout value tlx tly brx bry input c i j ∧
          random_cutout value tlx tly brx bry input c i j ≤ 255) ∧
    (∀ c < 3, ∀ i < 32, ∀ j < 32,
        0 ≤ random_crop ctlx ctly input c i j ∧
          random_crop ctlx ctly input c i j ≤ 255) ∧
    (∀ c < 3, ∀ i < 32, ∀ j < 32,
        0 ≤ contrast_and_horizontal_flipping alpha p input c i j ∧
          contrast_and_horizontal_flipping alpha p input c i j ≤ 255) :=
  ⟨fun c hc i hi j hj => rotation_range cs sn input hin c i j,
    cutout_range value tlx tly brx bry input hval hin,
    crop_range ctlx ctly input hin,
    cf_range alpha p input hin⟩

theorem transforms_output_range_witness :
    (((-1 : ℚ) ≤ 1 ∧ (1 : ℚ) ≤ 1 ∧ (-1 : ℚ) ≤ 0 ∧ (0 : ℚ) ≤ 1) ∧
      (5 ≤ 16 ∧ 0 ≤ 31 - 5 ∧ 0 ≤ 4 ∧ 4 ≤ 31) ∧
      (∀ c < 3, 0 ≤ (10 : ℚ) ∧ (10 : ℚ) ≤ 255) ∧
      (2 ≤ 4 ∧ (1 : ℚ)/2 ≤ 1 ∧ (1 : ℚ) ≤ 2 ∧ (0 : ℚ) ≤ 0 ∧ (0 : ℚ) < 1) ∧
      (∀ c < 3, ∀ i < 32, ∀ j < 32,
        0 ≤ (fun _ _ _ => (100 : ℚ)) c i j ∧ (fun _ _ _ => (100 : ℚ)) c i j ≤ 255)) ∧
    ((∀ c < 3, ∀ i < 32, ∀ j < 32,
        0 ≤ random_rotation 1 0 (fun _ _ _ => (100 : ℚ)) c i j ∧
          random_rotation 1 0 (fun _ _ _ => (100 : ℚ)) c i j ≤ 255) ∧
      (∀ c < 3, ∀ i < 32, ∀ j < 32,
        0 ≤ random_cutout (fun _ => (10 : ℚ)) 0 0 4 4 (fun _ _ _ => (100 : ℚ)) c i j ∧
          random_cutout (fun _ => (10 : ℚ)) 0 0 4 4 (fun _ _ _ => (100 : ℚ)) c i j ≤ 255) ∧
      (∀ c < 3, ∀ i < 32, ∀ j < 32,
        0 ≤ random_crop 2 2 (fun _ _ _ => (100 : ℚ)) c i j ∧
          random_crop 2 2 (fun _ _ _ => (100 : ℚ)) c i j ≤ 255) ∧
      (∀ c < 3, ∀ i < 32, ∀ j < 32,
        0 ≤ contrast_and_horizontal_flipping 1 0 (fun _ _ _ => (100 : ℚ)) c i j ∧
          contrast_and_horizontal_flipping 1 0 (fun _ _ _ => (100 : ℚ)) c i j ≤ 255)) :=
  ⟨⟨⟨by norm_num, by norm_num, by norm_num, by norm_num⟩,
      ⟨by decide, by decide, by decide, by decide⟩,
      fun c _ => ⟨by norm_num, by norm_num⟩,
      ⟨by decide, by norm_num, by norm_num, by norm_num, by norm_num⟩,
      fun c _ i _ j _ => ⟨by norm_num, by norm_num⟩⟩,
    transforms_output_range 1 0 (by norm_num) (by norm_num) (by norm_num) (by norm_num)
      5 5 (fun _ => (10 : ℚ)) 0 0 4 4 (by decide) (by decide) (by decide) (by decide)
      (by decide) (by decide) (by decide) (by decide)
      (fun c _ => ⟨by norm_num, by norm_num⟩)
      2 2 (by decide) (by decide)
      1 0 (by norm_num) (by norm_num) (by norm_num) (by norm_num)
      (fun _ _ _ => (100 : ℚ)) (fun c _ i _ j _ => ⟨by norm_num, by norm_num⟩)⟩

/-- The random draws one dispatcher iteration consumes, one field per draw
the four transforms need. -/
structure Draws where
  rotCos : ℚ
  rotSin : ℚ
  cutValue : ℕ → ℚ
  cutTlx : ℕ
  cutTly : ℕ
  cutBrx : ℕ
  cutBry : ℕ
  cropTlx : ℕ
  cropTly : ℕ
  cfAlpha : ℚ
  cfP : ℚ

/-- The operation dispatch of `main`, lines 311-318 of the source:
`0` is rotation, `1` cutout, `2` crop, anything else the contrast-and-flip
branch (the drawn indices are in [0, 4)). -/
def applyOperation (op : ℕ) (d : Draws) (img : Image) : Image :=
  if op = 0 then random_rotation d.rotCos d.rotSin img
  else if op = 1 then random_cutout d.cutValue d.cutTlx d.cutTly d.cutBrx d.cutBry img
  else if op = 2 then random_crop d.cropTlx d.cropTly img
  else contrast_and_horizontal_flipping d.cfAlpha d.cfP img

/-- The augmentation loop of `main`, lines 304-320 of the source: starting
from the empty list, append one augmented image per input image. -/
def augmentImages (N : ℕ) (ops : ℕ → ℕ) (draws : ℕ → Draws) (imgs : ℕ → Image) :
    List Image :=
  (List.range N).foldl
    (fun acc i => acc ++ [applyOperation (ops i) (draws i) (imgs i)]) []

/-- The augmented dataset of `main`, lines 322-329 of the source: the
original label list paired with the augmented images. -/
def augmentDataset (labels : List ℕ) (N : ℕ) (ops : ℕ → ℕ) (draws : ℕ → Draws)
    (imgs : ℕ → Image) : List ℕ × List Image :=
  (labels, augmentImages N ops draws imgs)

lemma foldl_append_map {α β : Type} (l : List α) (f : α → β) (acc : List β) :
    l.foldl (fun a x => a ++ [f x]) acc = acc ++ l.map f := by
  induction l generalizing acc with
  | nil => simp
  | cons hd tl ih =>
    rw [List.foldl_cons, ih, List.map_cons]
    simp

lemma augmentImages_eq_map (N : ℕ) (ops : ℕ → ℕ) (draws : ℕ → Draws)
    (imgs : ℕ → Image) :
    augmentImages N ops draws imgs
      = (List.range N).map (fun i => applyOperation (ops i) (draws i) (imgs i)) := by
  unfold augmentImages
  rw [foldl_append_map]
  simp

/-- C9: the dispatcher maps operation index 0 to rotation, 1 to cutout,
2 to crop and 3 to contrast-and-flip, produces exactly one augmented image
per input image with the i-th output from the i-th input, and keeps the
label list unchanged. -/
theorem dispatcher_spec (N : ℕ) (ops : ℕ → ℕ) (draws : ℕ → Draws)
    (imgs : ℕ → Image) (labels : List ℕ) (hops : ∀ i, i < N → ops i < 4) :
    (augmentDataset labels N ops draws imgs).1 = labels ∧
    (augmentImages N ops draws imgs).length = N ∧
    (∀ i, i < N →
      (augmentImages N ops draws imgs)[i]?
        = some (applyOperation (ops i) (draws i) (imgs i))) ∧
    (∀ i, i < N →
      (ops i = 0 → applyOperation (ops i) (draws i) (imgs i)
          = random_rotation (draws i).rotCos (draws i).rotSin (imgs i)) ∧
      (ops i = 1 → applyOperation (ops i) (draws i) (imgs i)
          = random_cutout (draws i).cutValue (draws i).cutTlx (draws i).cutTly
              (draws i).cutBrx (draws i).cutBry (imgs i)) ∧
      (ops i = 2 → applyOperation (ops i) (draws i) (imgs i)
          = random_crop (draws i).cropTlx (draws i).cropTly (imgs i)) ∧
      (ops i = 3 → applyOperation (ops i) (draws i) (imgs i)
          = contrast_and_horizontal_flipping (draws i).cfAlpha (draws i).cfP (imgs i))) := by
  refine ⟨rfl, ?_, ?_, ?_⟩
  · rw [augmentImages_eq_map]
    simp
  · intro i hi
    rw [augmentImages_eq_map]
    simp [List.getElem?_map, List.getElem?_range, hi]
  · intro i hi
    refine ⟨fun hop => ?_, fun hop => ?_, fun hop => ?_, fun hop => ?_⟩ <;>
      simp [applyOperation, hop]

theorem dispatcher_spec_witness :
    (∀ i, i < 1 → (fun _ => 0 : ℕ → ℕ) i < 4) ∧
    ((augmentDataset [7] 1 (fun _ => 0) (fun _ => ⟨1, 0, fun _ => 0, 0, 0, 0, 0, 0, 0, 1, 0⟩)
        (fun _ => zeroImage)).1 = [7] ∧
      (augmentImages 1 (fun _ => 0) (fun _ => ⟨1, 0, fun _ => 0, 0, 0, 0, 0, 0, 0, 1, 0⟩)
        (fun _ => zeroImage)).length = 1 ∧
      (∀ i, i < 1 →
        (augmentImages 1 (fun _ => 0) (fun _ => ⟨1, 0, fun _ => 0, 0, 0, 0, 0, 0, 0, 1, 0⟩)
            (fun _ => zeroImage))[i]?
          = some (applyOperation ((fun _ => 0 : ℕ → ℕ) i)
              ((fun _ => (⟨1, 0, fun _ => 0, 0, 0, 0, 0, 0, 0, 1, 0⟩ : Draws)) i)
              ((fun _ => zeroImage) i))) ∧
      (∀ i, i < 1 →
        (((fun _ => 0 : ℕ → ℕ) i = 0 →
          applyOperation ((fun _ => 0 : ℕ → ℕ) i)
              ((fun _ => (⟨1, 0, fun _ => 0, 0, 0, 0, 0, 0, 0, 1, 0⟩ : Draws)) i)
              ((fun _ => zeroImage) i)
            = random_rotation ((fun _ => (⟨1, 0, fun _ => 0, 0, 0, 0, 0, 0, 0, 1, 0⟩ : Draws)) i).rotCos
                ((fun _ => (⟨1, 0, fun _ => 0, 0, 0, 0, 0, 0, 0, 1, 0⟩ : Draws)) i).rotSin
                ((fun _ => zeroImage) i)) ∧
        ((fun _ => 0 : ℕ → ℕ) i = 1 →
          applyOperation ((fun _ => 0 : ℕ → ℕ) i)
              ((fun _ => (⟨1, 0, fun _ => 0, 0, 0, 0, 0, 0, 0, 1, 0⟩ : Draws)) i)
              ((fun _ => zeroImage) i)
            = random_cutout ((fun _ => (⟨1, 0, fun _ => 0, 0, 0, 0, 0, 0, 0, 1, 0⟩ : Draws)) i).cutValue
                ((fun _ => (⟨1, 0, fun _ => 0, 0, 0, 0, 0, 0, 0, 1, 0⟩ : Draws)) i).cutTlx
                ((fun _ => (⟨1, 0, fun _ => 0, 0, 0, 0, 0, 0, 0, 1, 0⟩ : Draws)) i).cutTly
                ((fun _ => (⟨1, 0, fun _ => 0, 0, 0, 0, 0, 0, 0, 1, 0⟩ : Draws)) i).cutBrx
                ((fun _ => (⟨1, 0, fun _ => 0, 0, 0, 0, 0, 0, 0, 1, 0⟩ : Draws)) i).cutBry
                ((fun _ => zeroImage) i)) ∧
        ((fun _ => 0 : ℕ → ℕ) i = 2 →
          applyOperation ((fun _ => 0 : ℕ → ℕ) i)
              ((fun _ => (⟨1, 0, fun _ => 0, 0, 0, 0, 0, 0, 0, 1, 0⟩ : Draws)) i)
              ((fun _ => zeroImage) i)
            = random_crop ((fun _ => (⟨1, 0, fun _ => 0, 0, 0, 0, 0, 0, 0, 1, 0⟩ : Draws)) i).cropTlx
                ((fun _ => (⟨1, 0, fun _ => 0, 0, 0, 0, 0, 0, 0, 1, 0⟩ : Draws)) i).cropTly
                ((fun _ => zeroImage) i)) ∧
        ((fun _ => 0 : ℕ → ℕ) i = 3 →
          applyOperation ((fun _ => 0 : ℕ → ℕ) i)
              ((fun _ => (⟨1, 0, fun _ => 0, 0, 0, 0, 0, 0, 0, 1, 0⟩ : Draws)) i)
              ((fun _ => zeroImage) i)
            = contrast_and_horizontal_flipping
                ((fun _ => (⟨1, 0, fun _ => 0, 0, 0, 0, 0, 0, 0, 1, 0⟩ : Draws)) i).cfAlpha
                ((fun _ => (⟨1, 0, fun _ => 0, 0, 0, 0, 0, 0, 0, 1, 0⟩ : Draws)) i).cfP
                ((fun _ => zeroImage) i))))) :=
  ⟨fun i _ => by norm_num,
    dispatcher_spec 1 (fun _ => 0) (fun _ => ⟨1, 0, fun _ => 0, 0, 0, 0, 0, 0, 0, 1, 0⟩)
      (fun _ => zeroImage) [7] (fun i _ => by norm_num)⟩

/-- C10: under the randomness contract, every index the cutout fill loop
visits is inside the 3 x 32 x 32 array, and every access of the crop window
extraction stays inside the 36 x 36 padded buffer. -/
theorem index_bounds_spec (w h tlx tly brx bry ctlx ctly : ℕ)
    (hw : w ≤ 16) (hh : h ≤ 16) (htlx : tlx ≤ 31 - w) (htly : tly ≤ 31 - h)
    (hbrx1 : tlx ≤ brx) (hbrx2 : brx ≤ 31) (hbry1 : tly ≤ bry) (hbry2 : bry ≤ 31)
    (hctlx : ctlx ≤ 4) (hctly : ctly ≤ 4) :
    (∀ t ∈ cutTriples tlx tly brx bry, t.1 < 3 ∧ t.2.1 < 32 ∧ t.2.2 < 32) ∧
    (∀ i < 32, ∀ j < 32, ctlx + i < 36 ∧ ctly + j < 36) := by
  constructor
  · rintro ⟨c, i, j⟩ ht
    obtain ⟨hc, h1, h2, h3, h4⟩ := mem_cutTriples.mp ht
    exact ⟨hc, show i < 32 by omega, show j < 32 by omega⟩
  · intro i hi j hj
    constructor <;> omega

theorem index_bounds_spec_witness :
    (0 ≤ 16 ∧ 0 ≤ 16 ∧ 0 ≤ 31 - 0 ∧ 0 ≤ 31 - 0 ∧ 0 ≤ 31 ∧ 31 ≤ 31 ∧ 0 ≤ 31 ∧
      31 ≤ 31 ∧ 4 ≤ 4 ∧ 4 ≤ 4) ∧
    ((∀ t ∈ cutTriples 0 0 31 31, t.1 < 3 ∧ t.2.1 < 32 ∧ t.2.2 < 32) ∧
      (∀ i < 32, ∀ j < 32, 4 + i < 36 ∧ 4 + j < 36)) :=
  ⟨⟨by decide, by decide, by decide, by decide, by decide, by decide, by decide,
      by decide, by decide, by decide⟩,
    index_bounds_spec 0 0 0 0 31 31 4 4 (by decide) (by decide) (by decide)
      (by decide) (by decide) (by decide) (by decide) (by decide) (by decide)
      (by decide)⟩

/-- A nested-list image carrying its actual extents (channels, then rows,
then pixels), used for the claims about shape handling. -/
abbrev NImage : Type := List (List (List ℚ))

/-- The numpy read `img[c][i][j]`; `none` models the IndexError raised on an
out-of-bounds index. -/
def ngetPix (img : NImage) (c i j : ℕ) : Option ℚ :=
  (img[c]?).bind fun ch => (ch[i]?).bind fun row => row[j]?

/-- The numpy store `img[c][i][j] = v` (a no-op off the extents; the
rotation only ever stores inside its own 3 x 32 x 32 output buffer). -/
def nsetPix (img : NImage) (c i j : ℕ) (v : ℚ) : NImage :=
  img.set c (((img.getD c []).set i (((img.getD c []).getD i []).set j v)))

/-- `np.zeros((a, b, c))` as a nested list. -/
def nzeros (a b c : ℕ) : NImage :=
  List.replicate a (List.replicate b (List.replicate c 0))

/-- Source pixel pairs of the rotation loops, i outermost then j. -/
def rotPairs : List (ℕ × ℕ) :=
  (List.range 32).flatMap fun i => (List.range 32).map fun j => (i, j)

/-- `random_rotation` on a nested-list image, lines 55-79 of the source,
performing exactly the array accesses the source performs: no shape check of
any kind, a read of `input_image[channel][i][j]` inside the guard (failing
only if that read is out of bounds), and stores into the
`np.zeros((3, 32, 32))` output buffer. -/
def random_rotationN (cs sn : ℚ) (input : NImage) : Option NImage :=
  rotPairs.foldlM
    (fun acc p =>
      if rotGuard cs sn p.1 p.2 then
        (List.range 3).foldlM
          (fun a c =>
            (ngetPix input c p.1 p.2).map fun v =>
              nsetPix a c (toU8 (rint (niVal cs sn p.1 p.2))).toNat
                (toU8 (rint (njVal cs sn p.1 p.2))).toNat v)
          acc
      else some acc)
    (nzeros 3 32 32)

lemma mem_rotPairs {i j : ℕ} : (i, j) ∈ rotPairs ↔ i < 32 ∧ j < 32 := by
  simp only [rotPairs, List.mem_flatMap, List.mem_map, List.mem_range]
  constructor
  · rintro ⟨a, ha, b, hb, hxeq⟩
    simp only [Prod.mk.injEq] at hxeq
    obtain ⟨rfl, rfl⟩ := hxeq
    exact ⟨ha, hb⟩
  · rintro ⟨hi, hj⟩
    exact ⟨i, hi, j, hj, rfl⟩

lemma foldlM_option_isSome {α β : Type} (l : List α) (f : β → α → Option β)
    (h : ∀ b : β, ∀ a ∈ l, (f b a).isSome = true) :
    ∀ b : β, (List.foldlM f b l).isSome = true := by
  induction l with
  | nil => intro b; rfl
  | cons hd tl ih =>
    intro b
    rw [List.foldlM_cons]
    have hhd := h b hd (List.mem_cons_self hd tl)
    cases hfb : f b hd with
    | none => rw [hfb] at hhd; exact absurd hhd (by simp)
    | some b2 =>
      have := ih (fun b a ha => h b a (List.mem_cons_of_mem hd ha)) b2
      simpa using this

lemma ngetPix_nzeros {a b c x y z : ℕ} (hx : x < a) (hy : y < b) (hz : z < c) :
    ngetPix (nzeros a b c) x y z = some 0 := by
  simp [ngetPix, nzeros, List.getElem?_replicate, hx, hy, hz]

/-- The rotation succeeds whenever all the reads it performs succeed: its
success or failure depends only on the readability of the 3 x 32 x 32 index
region, never on the input's shape itself. -/
lemma rotationN_succeeds_of_reads (cs sn : ℚ) (input : NImage)
    (h : ∀ c < 3, ∀ i < 32, ∀ j < 32, (ngetPix input c i j).isSome = true) :
    (random_rotationN cs sn input).isSome = true := by
  unfold random_rotationN
  apply foldlM_option_isSome
  intro b p hp
  obtain ⟨i, j⟩ := p
  obtain ⟨hi, hj⟩ := mem_rotPairs.mp hp
  dsimp only
  split
  · apply foldlM_option_isSome
    intro a c hc
    rw [List.mem_range] at hc
    have hread := h c hc i hi j hj
    cases hr : ngetPix input c i j with
    | none => rw [hr] at hread; exact absurd hread (by simp)
    | some v => rfl
  · rfl


/-- The region every transform touches on its input: the first three
channels exist and are 32 x 32 arrays.  This says nothing about the number
of channels, i.e. nothing about the input's full shape. -/
def readable3x32x32 (img : NImage) : Prop :=
  ∀ c < 3, ∃ ch, img[c]? = some ch ∧ ch.length = 32 ∧ ∀ r ∈ ch, r.length = 32

lemma readable_nzeros (k : ℕ) (hk : 3 ≤ k) : readable3x32x32 (nzeros k 32 32) := by
  intro c hc
  refine ⟨List.replicate 32 (List.replicate 32 0), ?_, by simp, ?_⟩
  · simp [nzeros, List.getElem?_replicate, show c < k by omega]
  · intro r hr
    rw [List.eq_of_mem_replicate hr]
    simp

lemma ngetPix_isSome_of_readable {img : NImage} (h : readable3x32x32 img)
    {c i j : ℕ} (hc : c < 3) (hi : i < 32) (hj : j < 32) :
    (ngetPix img c i j).isSome = true := by
  obtain ⟨ch, hch, hlen, hrows⟩ := h c hc
  have hich : i < ch.length := by omega
  have hrowlen : ch[i].length = 32 := hrows _ (List.getElem_mem hich)
  unfold ngetPix
  rw [hch, Option.some_bind, List.getElem?_eq_getElem hich, Option.some_bind,
    List.getElem?_eq_getElem (show j < ch[i].length by omega)]
  rfl

/-- A store never changes the extents of the buffer, so the readable region
stays readable. -/
lemma readable_nsetPix {img : NImage} (h : readable3x32x32 img) (c i j : ℕ)
    (v : ℚ) : readable3x32x32 (nsetPix img c i j v) := by
  intro c2 hc2
  obtain ⟨ch, hch, hlen, hrows⟩ := h c2 hc2
  unfold nsetPix
  by_cases hcc : c = c2
  · subst hcc
    have hclen : c < img.length := (List.getElem?_eq_some_iff.mp hch).1
    have hgd : img.getD c [] = ch := by
      rw [List.getD_eq_getElem?_getD, hch]
      rfl
    rw [hgd]
    refine ⟨ch.set i ((ch.getD i []).set j v), ?_, by simp [hlen], ?_⟩
    · rw [List.getElem?_set, if_pos rfl, if_pos hclen]
    · intro r hr
      by_cases hi : i < ch.length
      · rcases List.mem_or_eq_of_mem_set hr with hmem | heq
        · exact hrows r hmem
        · subst heq
          rw [List.length_set]
          have hm : ch.getD i [] ∈ ch := by
            rw [List.getD_eq_getElem?_getD, List.getElem?_eq_getElem hi]
            exact List.getElem_mem hi
          exact hrows _ hm
      · rw [List.set_eq_of_length_le (by omega)] at hr
        exact hrows r hr
  · refine ⟨ch, ?_, hlen, hrows⟩
    rw [List.getElem?_set, if_neg hcc]
    exact hch

/-- The checked numpy store `img[c][i][j] = v`: IndexError (`none`) exactly
when the target cell does not exist.  Used for the cutout, whose fill loop
stores into the copy of the input whatever shape that copy has. -/
def nsetPixChecked (img : NImage) (c i j : ℕ) (v : ℚ) : Option NImage :=
  if c < img.length ∧ i < (img.getD c []).length ∧
      j < ((img.getD c []).getD i []).length then
    some (nsetPix img c i j v)
  else none

lemma nsetPixChecked_eq_of_readable {img : NImage} (h : readable3x32x32 img)
    {c i j : ℕ} (hc : c < 3) (hi : i < 32) (hj : j < 32) (v : ℚ) :
    nsetPixChecked img c i j v = some (nsetPix img c i j v) := by
  obtain ⟨ch, hch, hlen, hrows⟩ := h c hc
  have hclen : c < img.length := (List.getElem?_eq_some_iff.mp hch).1
  have hgd : img.getD c [] = ch := by
    rw [List.getD_eq_getElem?_getD, hch]
    rfl
  have hrowlen : (ch.getD i []).length = 32 := by
    have hm : ch.getD i [] ∈ ch := by
      rw [List.getD_eq_getElem?_getD, List.getElem?_eq_getElem (show i < ch.length by omega)]
      exact List.getElem_mem (show i < ch.length by omega)
    exact hrows _ hm
  have hcond : c < img.length ∧ i < (img.getD c []).length ∧
      j < ((img.getD c []).getD i []).length :=
    ⟨hclen, by rw [hgd]; omega, by rw [hgd, hrowlen]; omega⟩
  unfold nsetPixChecked
  rw [if_pos hcond]

/-- Left folds in the option monad with a state invariant: if every step
succeeds from every state satisfying the invariant and re-establishes it,
the whole fold succeeds. -/
lemma foldlM_option_isSome_inv {α β : Type} (P : β → Prop) (l : List α)
    (f : β → α → Option β)
    (h : ∀ b, ∀ a ∈ l, P b → ∃ b2, f b a = some b2 ∧ P b2) :
    ∀ b, P b → (List.foldlM f b l).isSome = true := by
  induction l with
  | nil => intro b _; rfl
  | cons hd tl ih =>
    intro b hb
    rw [List.foldlM_cons]
    obtain ⟨b2, hfb, hb2⟩ := h b hd (List.mem_cons_self hd tl) hb
    rw [hfb]
    have := ih (fun b a ha hPb => h b a (List.mem_cons_of_mem hd ha) hPb) b2 hb2
    simpa using this

/-- `random_cutout` on a nested-list image, lines 82-113 of the source:
`np.copy` of the input whatever its shape (the copy is the fold's initial
state), then the fill loops, each store failing exactly when its own index
is out of bounds of that copy.  No shape check of any kind. -/
def random_cutoutN (value : ℕ → ℚ) (tlx tly brx bry : ℕ) (input : NImage) :
    Option NImage :=
  (cutTriples tlx tly brx bry).foldlM
    (fun acc t => nsetPixChecked acc t.1 t.2.1 t.2.2 (value t.1)) input

lemma cutoutN_succeeds_of_readable (value : ℕ → ℚ) (tlx tly brx bry : ℕ)
    (hbrx : brx ≤ 31) (hbry : bry ≤ 31) (input : NImage)
    (h : readable3x32x32 input) :
    (random_cutoutN value tlx tly brx bry input).isSome = true := by
  unfold random_cutoutN
  refine foldlM_option_isSome_inv readable3x32x32 _ _ ?_ input h
  intro b t ht hb
  obtain ⟨c, ij⟩ := t
  obtain ⟨i, j⟩ := ij
  obtain ⟨hc, h1, h2, h3, h4⟩ := mem_cutTriples.mp ht
  dsimp only
  exact ⟨nsetPix b c i j (value c),
    nsetPixChecked_eq_of_readable hb hc (by omega) (by omega) (value c),
    readable_nsetPix hb c i j (value c)⟩

/-- `np.pad(ch, pad_width=2, constant 0)` on one channel: two all-zero
border rows on each side and two zero cells on each side of every row (the
border width is taken from the first row; the channels the program feeds in
are rectangular). -/
def padChannel (ch : List (List ℚ)) : List (List ℚ) :=
  List.replicate 2 (List.replicate ((ch.headD []).length + 4) 0)
    ++ ch.map (fun r => List.replicate 2 0 ++ r ++ List.replicate 2 0)
    ++ List.replicate 2 (List.replicate ((ch.headD []).length + 4) 0)

/-- `random_crop` on a nested-list image, lines 116-145 of the source, per
channel: read `input_image[channel]` (IndexError if missing), pad it, and
assign the result into the (3,36,36) zero buffer slot -- numpy accepts that
assignment only when the padded channel is exactly 36 x 36 (np.pad of an
r x c channel is (r+4) x (c+4), broadcastable to (36,36) only for
r = c = 32); then the 32 x 32 window starting at (tlx, tly) is sliced out
and assigned into the (3,32,32) output, accepted only when the slice is
exactly 32 x 32.  The source runs the padding loop over all channels before
the extraction loop; channels are independent, so fusing the two loops per
channel leaves success and result unchanged.  No shape check beyond those
assignment checks, none of them before indexing. -/
def random_cropN (tlx tly : ℕ) (input : NImage) : Option NImage :=
  (List.range 3).foldlM
    (fun acc c =>
      (input[c]?).bind fun ch =>
        if (padChannel ch).length = 36 ∧ ∀ r ∈ padChannel ch, r.length = 36 then
          if (((padChannel ch).drop tlx).take 32).length = 32 ∧
              ∀ r ∈ ((padChannel ch).drop tlx).take 32,
                ((r.drop tly).take 32).length = 32 then
            some (acc ++
              [(((padChannel ch).drop tlx).take 32).map fun r => (r.drop tly).take 32])
          else none
        else none)
    ([] : NImage)

lemma cropN_succeeds_of_readable (tlx tly : ℕ) (htlx : tlx ≤ 4) (htly : tly ≤ 4)
    (input : NImage) (h : readable3x32x32 input) :
    (random_cropN tlx tly input).isSome = true := by
  unfold random_cropN
  apply foldlM_option_isSome
  intro b c hc
  rw [List.mem_range] at hc
  obtain ⟨ch, hch, hlen, hrows⟩ := h c hc
  rw [hch, Option.some_bind]
  have hhead : (ch.headD []).length = 32 := by
    cases ch with
    | nil => simp at hlen
    | cons r0 tl => exact hrows r0 (List.mem_cons_self r0 tl)
  have hplen : (padChannel ch).length = 36 := by
    simp [padChannel, hlen]
  have hprows : ∀ r ∈ padChannel ch, r.length = 36 := by
    intro r hr
    unfold padChannel at hr
    rcases List.mem_append.mp hr with hr1 | hr2
    · rcases List.mem_append.mp hr1 with hra | hrb
      · rw [List.eq_of_mem_replicate hra, List.length_replicate, hhead]
      · obtain ⟨r0, hr0, rfl⟩ := List.mem_map.mp hrb
        simp [hrows r0 hr0]
    · rw [List.eq_of_mem_replicate hr2, List.length_replicate, hhead]
  rw [if_pos ⟨hplen, hprows⟩]
  have hwlen : (((padChannel ch).drop tlx).take 32).length = 32 := by
    rw [List.length_take, List.length_drop, hplen]
    omega
  have hwrows : ∀ r ∈ ((padChannel ch).drop tlx).take 32,
      ((r.drop tly).take 32).length = 32 := by
    intro r hr
    have hrp : r ∈ padChannel ch :=
      List.drop_subset tlx (padChannel ch) (List.take_subset 32 _ hr)
    rw [List.length_take, List.length_drop, hprows r hrp]
    omega
  rw [if_pos ⟨hwlen, hwrows⟩]
  rfl

/-- `contrast_and_horizontal_flipping` on a nested-list image, lines
148-188 of the source: the contrast loop reads every input pixel of the
3 x 32 x 32 region (IndexError exactly when such a read is out of bounds)
and stores into the (3,32,32) zero buffer, `np.clip` maps the whole buffer,
and when `p > 0.5` the swap loop reads the two input pixels of each pair
and stores them into the buffer.  No shape check of any kind. -/
def contrast_and_flipN (alpha p : ℚ) (input : NImage) : Option NImage :=
  (ctTriples.foldlM
    (fun acc t =>
      (ngetPix input t.1 t.2.1 t.2.2).map fun v =>
        nsetPix acc t.1 t.2.1 t.2.2 (alpha * (v - 128) + 128))
    (nzeros 3 32 32)).bind fun out =>
    if 1/2 < p then
      flipTriples.foldlM
        (fun acc t =>
          (ngetPix input t.1 t.2.1 (31 - t.2.2)).bind fun v1 =>
            (ngetPix input t.1 t.2.1 t.2.2).map fun v2 =>
              nsetPix (nsetPix acc t.1 t.2.1 t.2.2 v1) t.1 t.2.1 (31 - t.2.2) v2)
        (out.map fun ch => ch.map fun row => row.map clipQ)
    else some (out.map fun ch => ch.map fun row => row.map clipQ)

lemma cfN_succeeds_of_readable (alpha p : ℚ) (input : NImage)
    (h : readable3x32x32 input) :
    (contrast_and_flipN alpha p input).isSome = true := by
  unfold contrast_and_flipN
  have h1 : (ctTriples.foldlM
      (fun acc t =>
        (ngetPix input t.1 t.2.1 t.2.2).map fun v =>
          nsetPix acc t.1 t.2.1 t.2.2 (alpha * (v - 128) + 128))
      (nzeros 3 32 32)).isSome = true := by
    apply foldlM_option_isSome
    intro b t ht
    obtain ⟨c, ij⟩ := t
    obtain ⟨i, j⟩ := ij
    obtain ⟨hc, hi, hj⟩ := mem_ctTriples.mp ht
    dsimp only
    have hr := ngetPix_isSome_of_readable h hc hi hj
    cases hrr : ngetPix input c i j with
    | none => rw [hrr] at hr; exact absurd hr (by simp)
    | some v => rfl
  rw [Option.isSome_iff_exists] at h1
  obtain ⟨out, hout⟩ := h1
  rw [hout, Option.some_bind]
  split
  · apply foldlM_option_isSome
    intro b t ht
    obtain ⟨c, ij⟩ := t
    obtain ⟨i, j⟩ := ij
    obtain ⟨hc, hi, hj⟩ := mem_flipTriples.mp ht
    dsimp only
    have hr1 := ngetPix_isSome_of_readable h hc hi (show 31 - j < 32 by omega)
    cases hrr1 : ngetPix input c i (31 - j) with
    | none => rw [hrr1] at hr1; exact absurd hr1 (by simp)
    | some v1 =>
      rw [Option.some_bind]
      have hr2 := ngetPix_isSome_of_readable h hc hi (show j < 32 by omega)
      cases hrr2 : ngetPix input c i j with
      | none => rw [hrr2] at hr2; exact absurd hr2 (by simp)
      | some v2 => rfl
  · rfl

/-- C2 (amended): none of the four transforms validates the input shape or
raises a shape error before indexing: each succeeds on every input whose
first three channels are 32 x 32 arrays, regardless of the input's actual
shape -- in particular regardless of its number of channels. -/
theorem transforms_no_shape_check (cs sn alpha p : ℚ) (value : ℕ → ℚ)
    (tlx tly brx bry ctlx ctly : ℕ)
    (hbrx : brx ≤ 31) (hbry : bry ≤ 31) (hctlx : ctlx ≤ 4) (hctly : ctly ≤ 4)
    (input : NImage) (h : readable3x32x32 input) :
    (random_rotationN cs sn input).isSome = true ∧
    (random_cutoutN value tlx tly brx bry input).isSome = true ∧
    (random_cropN ctlx ctly input).isSome = true ∧
    (contrast_and_flipN alpha p input).isSome = true :=
  ⟨rotationN_succeeds_of_reads cs sn input
      fun c hc i hi j hj => ngetPix_isSome_of_readable h hc hi hj,
    cutoutN_succeeds_of_readable value tlx tly brx bry hbrx hbry input h,
    cropN_succeeds_of_readable ctlx ctly hctlx hctly input h,
    cfN_succeeds_of_readable alpha p input h⟩

theorem transforms_no_shape_check_witness :
    ((4 ≤ 31 ∧ 4 ≤ 31 ∧ 2 ≤ 4 ∧ 2 ≤ 4) ∧ readable3x32x32 (nzeros 3 32 32)) ∧
    ((random_rotationN 1 0 (nzeros 3 32 32)).isSome = true ∧
      (random_cutoutN (fun _ => 10) 0 0 4 4 (nzeros 3 32 32)).isSome = true ∧
      (random_cropN 2 2 (nzeros 3 32 32)).isSome = true ∧
      (contrast_and_flipN 1 (9/10) (nzeros 3 32 32)).isSome = true) :=
  ⟨⟨⟨by decide, by decide, by decide, by decide⟩, readable_nzeros 3 (by decide)⟩,
    transforms_no_shape_check 1 0 1 (9/10) (fun _ => 10) 0 0 4 4 2 2
      (by decide) (by decide) (by decide) (by decide) (nzeros 3 32 32)
      (readable_nzeros 3 (by decide))⟩

/-- C2 counterexample: the all-zero input of shape 4 x 32 x 32 -- not
3 x 32 x 32 -- is rejected by none of the four transforms: all four
silently process it and return a result instead of failing with a
shape-mismatch error. -/
theorem transforms_wrong_shape_not_rejected :
    (nzeros 4 32 32).length = 4 ∧
    (random_rotationN 1 0 (nzeros 4 32 32)).isSome = true ∧
    (random_cutoutN (fun _ => 10) 0 0 4 4 (nzeros 4 32 32)).isSome = true ∧
    (random_cropN 2 2 (nzeros 4 32 32)).isSome = true ∧
    (contrast_and_flipN 1 (9/10) (nzeros 4 32 32)).isSome = true :=
  ⟨by simp [nzeros],
    rotationN_succeeds_of_reads 1 0 (nzeros 4 32 32)
      fun c hc i hi j hj =>
        ngetPix_isSome_of_readable (readable_nzeros 4 (by norm_num)) hc hi hj,
    cutoutN_succeeds_of_readable (fun _ => 10) 0 0 4 4 (by decide) (by decide)
      (nzeros 4 32 32) (readable_nzeros 4 (by norm_num)),
    cropN_succeeds_of_readable 2 2 (by decide) (by decide) (nzeros 4 32 32)
      (readable_nzeros 4 (by norm_num)),
    cfN_succeeds_of_readable 1 (9/10) (nzeros 4 32 32)
      (readable_nzeros 4 (by norm_num))⟩
